import Mathlib

/-!
Verification development for `src/cubic_reg.py` (cubic-regularization optimizer).

The program is numerical Python (numpy/scipy) working on real vectors and
matrices.  We shallowly embed it over the exact rationals `ℚ`: every arithmetic
operation of the source is exact field arithmetic, vectors are `Fin n → ℚ` and
matrices `Matrix (Fin n) (Fin n) ℚ`.  Library calls are embedded by their exact
mathematical semantics:

* `scipy.linalg.cholesky(A)` succeeds if and only if (the symmetric matrix) `A`
  is positive definite, which for exact arithmetic is Sylvester's criterion:
  every leading principal minor is positive (`cholSucceeds`).
* `cholesky` followed by `scipy.linalg.cho_solve((L, False), b)` computes the
  exact solution of `A x = b`; we embed the composite as `linSolve` (Cramer's
  rule, `A⁻¹ b` whenever `det A ≠ 0`).
* `np.linalg.norm v <= r` is, in exact arithmetic, `0 ≤ r ∧ (∑ vᵢ²) ≤ r²`
  (`normLE`), and similarly for equality (`normEQ`); `norm(v)**2 = ∑ vᵢ²`.
* symmetric eigendecompositions (`np.linalg.eigh`, `scipy.linalg.eigh`) have
  irrational results in general; they are passed to the embedded code as
  explicit oracle parameters, exactly as the numerical library is an external
  collaborator of the source.
-/

namespace CubicReg

open Matrix

/-- Real vectors of dimension `n` (a numpy 1-d array), exactly. -/
abbrev Vec (n : ℕ) := Fin n → ℚ

/-- Real `n × n` matrices (a numpy 2-d array), exactly. -/
abbrev Mat (n : ℕ) := Matrix (Fin n) (Fin n) ℚ

/-- Squared Euclidean norm: `np.linalg.norm(v)**2` in exact arithmetic. -/
def normSq {n : ℕ} (v : Vec n) : ℚ := ∑ i, v i * v i

/-- The value of `np.sqrt(np.finfo(float).eps)`: double-precision machine
epsilon is exactly `2⁻⁵²` and its square root is exactly `2⁻²⁶`. -/
def sqrtMachEps : ℚ := 1 / 2 ^ 26

/-- Exact semantics of the comparison `np.linalg.norm s <= r`. -/
def normLE {n : ℕ} (v : Vec n) (r : ℚ) : Bool := decide (0 ≤ r ∧ normSq v ≤ r ^ 2)

/-- Exact semantics of the comparison `np.linalg.norm s == r`. -/
def normEQ {n : ℕ} (v : Vec n) (r : ℚ) : Bool := decide (0 ≤ r ∧ normSq v = r ^ 2)

/-- Leading principal submatrix of size `k+1` for `k : Fin n`. -/
def leadingSub {n : ℕ} (A : Mat n) (k : Fin n) :
    Matrix (Fin (k.val + 1)) (Fin (k.val + 1)) ℚ :=
  A.submatrix (Fin.castLE k.isLt) (Fin.castLE k.isLt)

/-- Success of `scipy.linalg.cholesky`: in exact arithmetic the factorization
of a symmetric matrix succeeds iff the matrix is positive definite, i.e. iff
all leading principal minors are positive (Sylvester's criterion). -/
def cholSucceeds {n : ℕ} (A : Mat n) : Bool :=
  decide (∀ k : Fin n, 0 < (leadingSub A k).det)

/-- Exact semantics of `cholesky` + `cho_solve`: the solution of `A x = b`,
written with the adjugate so that it is total and executable (it equals
`A⁻¹ b` whenever `det A ≠ 0`). -/
def linSolve {n : ℕ} (A : Mat n) (b : Vec n) : Vec n :=
  (A.det)⁻¹ • (A.adjugate.mulVec b)

/-- Exact semantics of `np.linalg.pinv(np.diag d)`: the Moore–Penrose
pseudo-inverse of a diagonal matrix inverts the nonzero diagonal entries. -/
def pinvDiag {n : ℕ} (d : Vec n) : Mat n :=
  Matrix.diagonal (fun i => if d i = 0 then 0 else (d i)⁻¹)

/-- `AuxiliaryProblem.__init__` (src/cubic_reg.py:125-133).  The source stores
the gradient and hessian callables but only ever evaluates them at `self.x`
(`self.gradient(self.x)`, `self.hessian(self.x)`), so we store those two
values.  `M`, `lambda_nplus` and `kappa_easy` are the scalar fields. -/
structure AuxProblem (n : ℕ) where
  x : Vec n
  g : Vec n
  H : Mat n
  M : ℚ
  lambda_nplus : ℚ
  kappa_easy : ℚ

/-- `self.H_lambda`: `hessian(x) + λ·identity`. -/
def AuxProblem.Hlam {n : ℕ} (P : AuxProblem n) (lam : ℚ) : Mat n :=
  P.H + lam • 1

/-- The initial value of `self.lambda_const = (1+λ₊)·sqrt(machine eps)`. -/
def AuxProblem.lambda_const {n : ℕ} (P : AuxProblem n) : ℚ :=
  (1 + P.lambda_nplus) * sqrtMachEps

/-- `AuxiliaryProblem.compute_s` (src/cubic_reg.py:136-144).  Tries the
Cholesky factorization of `H + λI`; on failure it doubles the persistent
offset (`self.lambda_const *= 2`) and retries at `λ₊ + offset`.  The mutable
`self.lambda_const` is threaded explicitly as `del`, and the unbounded
recursion carries a fuel parameter; `none` means the fuel ran out before a
factorization succeeded. -/
def AuxProblem.compute_s {n : ℕ} (P : AuxProblem n) :
    ℕ → ℚ → ℚ → Option (Vec n × ℚ × ℚ)
  | 0, _, _ => none
  | fuel + 1, del, lam =>
    if cholSucceeds (P.Hlam lam) then
      some (linSolve (P.Hlam lam) (-P.g), lam, del)
    else
      AuxProblem.compute_s P fuel (2 * del) (P.lambda_nplus + 2 * del)

/-- The expression the source uses for `s_cri` in the hard case
(src/cubic_reg.py:172): `-U.T.dot(np.linalg.pinv(np.diag(Lambda))).dot(U).dot(g)`. -/
def sCriCode {n : ℕ} (lams : Vec n) (U : Mat n) (g : Vec n) : Vec n :=
  -((Uᵀ * pinvDiag lams * U).mulVec g)

/-- Outcome of the case analysis of `AuxiliaryProblem.solve` before the
secular-equation Newton loop: either the function returned a point, or control
reached the `while not self.converged(...)` loop with trial step `s`,
multiplier `lam` and current offset `del`. -/
inductive SolveResult (n : ℕ) where
  | done (p : Vec n)
  | newtonPhase (s : Vec n) (lam : ℚ) (del : ℚ)
deriving DecidableEq

/-- `AuxiliaryProblem.solve` (src/cubic_reg.py:160-180) up to (and excluding)
the secular Newton iteration, whose body no claim concerns.  `eigh` is the
oracle for `np.linalg.eigh` (eigenvalues ascending, eigenvectors as columns)
and `rootsMax` the oracle for `max(np.roots([a, b, c]))`.  Mirrors the source:
seed `λ`, first `compute_s`, radius `r = 2λ/M`, the boundary/hard-case block,
then the `λ += lambda_const` bump before the Newton loop. -/
def AuxProblem.solve_cases {n : ℕ} (P : AuxProblem n)
    (eigh : Mat n → Vec n × Mat n) (rootsMax : ℚ → ℚ → ℚ → ℚ) (fuel : ℕ)
    (hn : 0 < n) : Option (SolveResult n) :=
  let lam0 : ℚ := if P.lambda_nplus = 0 then 0 else P.lambda_nplus + P.lambda_const
  match P.compute_s fuel P.lambda_const lam0 with
  | none => none
  | some (s, lam, del) =>
    let r := 2 * lam / P.M
    if normLE s r then
      if lam = 0 ∨ normEQ s r = true then
        some (SolveResult.done (s + P.x))
      else
        let ed := eigh (P.Hlam P.lambda_nplus)
        let s_cri := sCriCode ed.1 ed.2 P.g
        let u0 : Vec n := fun i => ed.2 i ⟨0, hn⟩
        let alph := rootsMax (Matrix.dotProduct u0 u0) (2 * Matrix.dotProduct u0 s_cri)
          (Matrix.dotProduct s_cri s_cri - 4 * P.lambda_nplus ^ 2 / P.M ^ 2)
        some (SolveResult.done (s_cri + alph • u0 + P.x))
    else
      let lam1 := if lam = 0 then lam + del else lam
      some (SolveResult.newtonPhase s lam1 del)

/-- `CubicRegularization` (src/cubic_reg.py:6-33), restricted to the fields
the outer loop reads.  The subproblem solver is passed as the oracle
`auxSolve M x λ₊`, standing for
`AuxiliaryProblem(x, gradient, hessian, M, λ₊, kappa_easy).solve()`, and
`smallestEig x` is the oracle for
`scipy.linalg.eigh(hessian(x), eigvals_only=True, eigvals=(0, 0))[0]`,
the smallest eigenvalue of the Hessian at `x`. -/
structure Optimizer (n : ℕ) where
  f : Vec n → ℚ
  gradient : Vec n → Vec n
  L : Option ℚ
  L0 : ℚ
  maxiter : ℕ
  conv_tol : ℚ
  auxSolve : ℚ → Vec n → ℚ → Vec n
  smallestEig : Vec n → ℚ

/-- `CubicRegularization.compute_lambda_nplus` (src/cubic_reg.py:78-80):
`max(-smallest eigenvalue, 0)`. -/
def Optimizer.compute_lambda_nplus {n : ℕ} (P : Optimizer n) (x : Vec n) : ℚ :=
  max (-(P.smallestEig x)) 0

/-- `CubicRegularization.check_convergence` (src/cubic_reg.py:82-86):
`np.linalg.norm(gradient(x))**2 <= conv_tol`. -/
def Optimizer.check_convergence {n : ℕ} (P : Optimizer n) (x : Vec n) : Bool :=
  decide (normSq (P.gradient x) ≤ P.conv_tol)

/-- The `while not decreased` loop inside `find_x_new` (src/cubic_reg.py:108-113):
double `mk`, solve the subproblem, accept when `f(x_new) - f(x_old) <= 0`.
Fuel bounds the unbounded source loop; `none` means no acceptance in `fuel`
doublings. -/
def Optimizer.adaptive_search {n : ℕ} (P : Optimizer n) :
    ℕ → ℚ → Vec n → ℚ → Option (Vec n × ℚ)
  | 0, _, _, _ => none
  | fuel + 1, mkv, x_old, lam =>
    let mk2 := 2 * mkv
    let x_new := P.auxSolve mk2 x_old lam
    if P.f x_new - P.f x_old ≤ 0 then some (x_new, mk2)
    else Optimizer.adaptive_search P fuel mk2 x_old lam

/-- `CubicRegularization.find_x_new` (src/cubic_reg.py:102-115): with a fixed
`L`, solve once and return `(x_new, L)`; otherwise run the adaptive search and
shrink the accepted weight to `max(mk/2, L0)`. -/
def Optimizer.find_x_new {n : ℕ} (P : Optimizer n) (fuel : ℕ) (mk : ℚ)
    (x_old : Vec n) (lam : ℚ) : Option (Vec n × ℚ) :=
  match P.L with
  | some l => some (P.auxSolve l x_old lam, l)
  | none =>
    match P.adaptive_search fuel mk x_old lam with
    | none => none
    | some (x_new, macc) => some (x_new, max (macc / 2) P.L0)

/-- The mutable state of the `while` loop of `cubic_reg`
(src/cubic_reg.py:88-100): `k`, `converged`, `x_new`, `mk`,
`self.lambda_nplus` and `intermediate_points`. -/
structure OState (n : ℕ) where
  k : ℕ
  converged : Bool
  x : Vec n
  mkw : ℚ
  lam : ℚ
  pts : List (Vec n)

/-- State on entry of the loop: `k = 0`, `converged = False`, `x_new = x0`,
`mk = L0`, `λ₊` as computed in `__init__`, `intermediate_points = [x0]`. -/
def Optimizer.initState {n : ℕ} (P : Optimizer n) (x0 : Vec n) : OState n :=
  ⟨0, false, x0, P.L0, P.compute_lambda_nplus x0, [x0]⟩

/-- The guard `k < self.maxiter and converged is False`. -/
def Optimizer.loopGuard {n : ℕ} (P : Optimizer n) (st : OState n) : Bool :=
  decide (st.k < P.maxiter) && !st.converged

/-- One execution of the loop body of `cubic_reg` (src/cubic_reg.py:94-99).
Note that the source never increments `k` inside the loop: the new state keeps
`k := st.k`. -/
def Optimizer.loopStep {n : ℕ} (P : Optimizer n) (fuel : ℕ) (st : OState n) :
    Option (OState n) :=
  match P.find_x_new fuel st.mkw st.x st.lam with
  | none => none
  | some (x_new, mk') =>
    some ⟨st.k, P.check_convergence x_new, x_new, mk',
      P.compute_lambda_nplus x_new, st.pts ++ [x_new]⟩

/-- The `while` loop of `cubic_reg`, with fuel for the unbounded iteration;
`none` means the fuel was exhausted with the guard still true (the loop was
still running). -/
def Optimizer.loopRun {n : ℕ} (P : Optimizer n) (fuelI : ℕ) :
    ℕ → OState n → Option (Vec n × List (Vec n))
  | 0, st => if P.loopGuard st then none else some (st.x, st.pts)
  | fuelO + 1, st =>
    if P.loopGuard st then
      match P.loopStep fuelI st with
      | none => none
      | some st' => P.loopRun fuelI fuelO st'
    else some (st.x, st.pts)

/-- `CubicRegularization.cubic_reg` (src/cubic_reg.py:88-100), the run entry
point: run the loop from the initial state and return
`(x_new, intermediate_points)`. -/
def Optimizer.cubic_reg {n : ℕ} (P : Optimizer n) (x0 : Vec n)
    (fuelI fuelO : ℕ) : Option (Vec n × List (Vec n)) :=
  P.loopRun fuelI fuelO (P.initState x0)

/-- `CubicRegularization.std_basis` (src/cubic_reg.py:60-64). -/
def std_basis (n : ℕ) (idx : Fin n) : Vec n :=
  fun j => if j = idx then 1 else 0

/-- `CubicRegularization.approx_grad` (src/cubic_reg.py:66-67): central finite
difference of the objective along each standard basis direction. -/
def approx_grad {n : ℕ} (f : Vec n → ℚ) (eps : ℚ) (x : Vec n) : Vec n :=
  fun i => (f (x + eps • std_basis n i) - f (x - eps • std_basis n i)) / (2 * eps)

/-- `CubicRegularization.approx_hess` (src/cubic_reg.py:69-76): the source
computes `(gradient(x + ε eⱼ)ᵢ - gradient(x)ᵢ) / ε`, a forward difference. -/
def approx_hess {n : ℕ} (gradient : Vec n → Vec n) (eps : ℚ) (x : Vec n) : Mat n :=
  Matrix.of fun i j => (gradient (x + eps • std_basis n j) i - gradient x i) / eps

/-- Modelled from the spec: the spec asserts the Hessian fallback is a
*central* finite-difference approximation "evaluating the ... gradient at ±ε
along each standard basis direction".  This definition follows the spec's
words, to be compared with `approx_hess` above (which follows the source). -/
def approx_hess_central_spec {n : ℕ} (gradient : Vec n → Vec n) (eps : ℚ)
    (x : Vec n) : Mat n :=
  Matrix.of fun i j =>
    (gradient (x + eps • std_basis n j) i - gradient (x - eps • std_basis n j) i) / (2 * eps)

/-- Constructor arguments of `CubicRegularization.__init__` as far as
`check_inputs` (src/cubic_reg.py:35-58) reads them.  The starting point is a
typed list, so the `isinstance` arm and the `try/except TypeError` arity arms
of the source cannot fire in the embedding and are not modelled. -/
structure Inputs where
  x0 : List ℚ
  f : Option (List ℚ → ℚ)
  gradient : Option (List ℚ → List ℚ)
  hessian : Option (List ℚ → List (List ℚ))
  L : Option ℚ
  L0 : Option ℚ
  kappa_easy : ℚ
  maxiter : ℚ
  conv_tol : ℚ
  epsilon : ℚ

/-- Python truthiness test `not o or o > 0` for an optional float `o`:
true when `o` is `None`, when `o == 0.0` (zero is falsy!), or when `o > 0`. -/
def py_not_or_pos (o : Option ℚ) : Bool :=
  match o with
  | none => true
  | some v => decide (v = 0) || decide (0 < v)

/-- `CubicRegularization.check_inputs` (src/cubic_reg.py:35-58): `true` iff no
exception is raised (for the arms representable in the typed embedding). -/
def check_inputs (inp : Inputs) : Bool :=
  decide (1 ≤ inp.x0.length) &&
  (inp.f.isSome || (inp.gradient.isSome && inp.hessian.isSome && inp.L.isSome)) &&
  (py_not_or_pos inp.L && py_not_or_pos inp.L0 &&
    decide (0 < inp.kappa_easy) && decide (0 < inp.maxiter) &&
    decide (0 < inp.conv_tol) && decide (0 < inp.epsilon))

/-- A supplied optional scalar which is not strictly positive. -/
def suppliedNonPos (o : Option ℚ) : Bool :=
  match o with
  | none => false
  | some v => decide (v ≤ 0)

/-- Modelled from the spec: construction must raise exactly when the starting
point is empty, neither `f` nor the full `{gradient, hessian, L}` combination
is supplied, or any supplied scalar configuration value is not strictly
positive.  (The wrong-type and arity arms are not representable in the typed
embedding.) -/
def spec_requires_error (inp : Inputs) : Bool :=
  decide (inp.x0.length < 1) ||
  !(inp.f.isSome || (inp.gradient.isSome && inp.hessian.isSome && inp.L.isSome)) ||
  suppliedNonPos inp.L || suppliedNonPos inp.L0 ||
  decide (inp.kappa_easy ≤ 0) || decide (inp.maxiter ≤ 0) ||
  decide (inp.conv_tol ≤ 0) || decide (inp.epsilon ≤ 0)

/-! ### Generic helper lemmas -/

lemma cholSucceeds_iff {n : ℕ} (A : Mat n) :
    cholSucceeds A = true ↔ ∀ k : Fin n, 0 < (leadingSub A k).det := by
  simp [cholSucceeds]

lemma leadingSub_last {n : ℕ} (A : Mat (n + 1)) :
    leadingSub A (Fin.last n) = A := by
  have h : (Fin.castLE (Fin.last n).isLt) = (id : Fin (n + 1) → Fin (n + 1)) := by
    funext i; exact Fin.ext rfl
  rw [leadingSub, h, Matrix.submatrix_id_id]

lemma det_pos_of_cholSucceeds {n : ℕ} (A : Mat n) (h : cholSucceeds A = true) :
    0 < A.det := by
  cases n with
  | zero => rw [Matrix.det_fin_zero]; norm_num
  | succ m =>
    have hk := (cholSucceeds_iff A).mp h (Fin.last m)
    rwa [leadingSub_last] at hk

lemma mulVec_linSolve {n : ℕ} (A : Mat n) (b : Vec n) (h : A.det ≠ 0) :
    A.mulVec (linSolve A b) = b := by
  unfold linSolve
  rw [Matrix.mulVec_smul, Matrix.mulVec_mulVec, Matrix.mul_adjugate,
    Matrix.smul_mulVec_assoc, Matrix.one_mulVec, smul_smul,
    inv_mul_cancel₀ h, one_smul]

lemma Hlam_zero {n : ℕ} (P : AuxProblem n) : P.Hlam 0 = P.H := by
  simp [AuxProblem.Hlam]

/-! ### C5 -/

/-- C5: for every point, the computed `lambda_nplus` equals
`max(0, -(smallest eigenvalue of the Hessian at that point))`, and is
therefore always nonnegative. -/
theorem lambda_nplus_spec {n : ℕ} (P : Optimizer n) (x : Vec n) :
    P.compute_lambda_nplus x = max 0 (-(P.smallestEig x)) ∧
    0 ≤ P.compute_lambda_nplus x := by
  refine ⟨by rw [Optimizer.compute_lambda_nplus, max_comm], le_max_right _ _⟩

/-! ### C6 -/

/-- C6: the convergence predicate returns `true` iff the squared Euclidean
norm of the gradient at the point is at most the convergence tolerance, and a
state whose `converged` flag is true is terminal: the loop guard is false and
the loop returns the current iterate at once, with no further iterations. -/
theorem convergence_predicate_spec {n : ℕ} (P : Optimizer n) (x : Vec n)
    (st : OState n) (hst : st.converged = true) (fuelI fuelO : ℕ) :
    (P.check_convergence x = true ↔ normSq (P.gradient x) ≤ P.conv_tol) ∧
    P.loopGuard st = false ∧
    P.loopRun fuelI fuelO st = some (st.x, st.pts) := by
  have hg : P.loopGuard st = false := by simp [Optimizer.loopGuard, hst]
  refine ⟨by simp [Optimizer.check_convergence], hg, ?_⟩
  cases fuelO <;> simp [Optimizer.loopRun, hg]

/-- Concrete optimizer used for the C6 witness. -/
def P6 : Optimizer 1 :=
  ⟨fun _ => 0, fun v => v, none, 1, 10, 1, fun _ x _ => x, fun _ => 0⟩

theorem convergence_predicate_spec_witness :
    (P6.check_convergence (fun _ => 0) = true ↔
      normSq (P6.gradient (fun _ => 0)) ≤ P6.conv_tol) ∧
    P6.loopGuard ⟨0, true, (fun _ => 0), 0, 0, []⟩ = false ∧
    P6.loopRun 1 1 ⟨0, true, (fun _ => 0), 0, 0, []⟩ = some ((fun _ => 0), []) :=
  convergence_predicate_spec P6 (fun _ => 0) ⟨0, true, (fun _ => 0), 0, 0, []⟩ rfl 1 1

/-! ### C9 -/

/-- C9: with a fixed regularization weight `L`, `find_x_new` returns the
subproblem solver's result unconditionally, paired with `L`; the result does
not depend on the objective `f` (the objective is never evaluated on this
path); and the objective value is allowed to increase: there is a run where
`f(x_new) > f(x_old)`. -/
theorem fixed_weight_unconditional {n : ℕ} (P : Optimizer n) (l : ℚ)
    (hL : P.L = some l) (fuel : ℕ) (mkv : ℚ) (x_old : Vec n) (lam : ℚ)
    (f' : Vec n → ℚ) :
    P.find_x_new fuel mkv x_old lam = some (P.auxSolve l x_old lam, l) ∧
    Optimizer.find_x_new
      ⟨f', P.gradient, P.L, P.L0, P.maxiter, P.conv_tol, P.auxSolve, P.smallestEig⟩
      fuel mkv x_old lam = P.find_x_new fuel mkv x_old lam ∧
    ∃ (Q : Optimizer 1) (lq : ℚ) (y yn : Vec 1) (m' : ℚ),
      Q.L = some lq ∧ Q.find_x_new 1 1 y 0 = some (yn, m') ∧ Q.f y < Q.f yn := by
  refine ⟨by simp [Optimizer.find_x_new, hL], by simp [Optimizer.find_x_new, hL], ?_⟩
  refine ⟨⟨fun v => v 0, fun v => v, some 1, 1, 10, 1,
    fun _ y _ => (fun i => y i + 1), fun _ => 0⟩, 1,
    (fun _ => 0), (fun i => (fun _ => (0 : ℚ)) i + 1), 1, rfl, rfl, by norm_num⟩

/-- Concrete optimizer used for the C9 witness. -/
def P9 : Optimizer 1 :=
  ⟨fun v => v 0, fun v => v, some 2, 1, 10, 1, fun _ y _ => y, fun _ => 0⟩

theorem fixed_weight_unconditional_witness :
    P9.find_x_new 1 1 (fun _ => 0) 0 = some (P9.auxSolve 2 (fun _ => 0) 0, 2) ∧
    Optimizer.find_x_new
      ⟨fun _ => 5, P9.gradient, P9.L, P9.L0, P9.maxiter, P9.conv_tol,
        P9.auxSolve, P9.smallestEig⟩ 1 1 (fun _ => 0) 0 =
      P9.find_x_new 1 1 (fun _ => 0) 0 ∧
    ∃ (Q : Optimizer 1) (lq : ℚ) (y yn : Vec 1) (m' : ℚ),
      Q.L = some lq ∧ Q.find_x_new 1 1 y 0 = some (yn, m') ∧ Q.f y < Q.f yn :=
  fixed_weight_unconditional P9 2 rfl 1 1 (fun _ => 0) 0 (fun _ => 5)

/-! ### C1 -/

lemma loopRun_none_of_guard {n : ℕ} (P : Optimizer n) (l : ℚ) (hL : P.L = some l)
    (hconv : ∀ x, P.check_convergence x = false) (fuelI : ℕ) :
    ∀ (fuelO : ℕ) (st : OState n), st.k < P.maxiter → st.converged = false →
      P.loopRun fuelI fuelO st = none := by
  intro fuelO
  induction fuelO with
  | zero =>
    intro st hk hc
    simp [Optimizer.loopRun, Optimizer.loopGuard, hk, hc]
  | succ m ih =>
    intro st hk hc
    have hg : P.loopGuard st = true := by simp [Optimizer.loopGuard, hk, hc]
    rw [Optimizer.loopRun, if_pos hg, Optimizer.loopStep, Optimizer.find_x_new, hL]
    exact ih _ hk (hconv _)

/-- C1 (code bug): the source never increments `k` inside the `while` loop of
`cubic_reg`, so with a fixed weight and a convergence predicate that is never
true the loop guard `k < maxiter and converged is False` stays true forever:
the run entry point does not terminate (it returns `none` at every fuel),
instead of stopping after `maxiter` iterations as the claim states. -/
theorem cubic_reg_never_terminates {n : ℕ} (P : Optimizer n) (x0 : Vec n)
    (l : ℚ) (hL : P.L = some l) (hconv : ∀ x, P.check_convergence x = false)
    (hmax : 0 < P.maxiter) (fuelI fuelO : ℕ) :
    P.cubic_reg x0 fuelI fuelO = none :=
  loopRun_none_of_guard P l hL hconv fuelI fuelO _ hmax rfl

/-- Concrete optimizer for the C1 witness: constant gradient `[1]` and
`conv_tol = 10⁻⁶`, so the convergence predicate is identically false. -/
def P1 : Optimizer 1 :=
  ⟨fun _ => 0, fun _ => (fun _ => 1), some 1, 1, 1000, 1 / 1000000,
    fun _ x _ => x, fun _ => 0⟩

theorem cubic_reg_never_terminates_witness :
    P1.cubic_reg (fun _ => 1) 1 5 = none :=
  cubic_reg_never_terminates P1 (fun _ => 1) 1 rfl
    (fun x => by
      simp [P1, Optimizer.check_convergence, normSq, Fin.sum_univ_one]
      norm_num)
    (by norm_num [P1]) 1 5

/-! ### C7 -/

/-- The concrete gradient function `v ↦ [v₀²]` used in the C7 counterexample. -/
def g7 : Vec 1 → Vec 1 := fun v _ => v 0 * v 0

/-- C7 counterexample: at dimension 1 with gradient function `v ↦ [v₀²]`,
step `ε = 1` and point `0`, the source's Hessian fallback gives `[[1]]` (a
forward difference) while the central-difference formula asserted by the spec
gives `[[0]]`; the two disagree. -/
theorem hessian_fallback_counterexample :
    approx_hess g7 1 (fun _ => 0) 0 0 = 1 ∧
    approx_hess_central_spec g7 1 (fun _ => 0) 0 0 = 0 ∧
    approx_hess g7 1 (fun _ => 0) ≠ approx_hess_central_spec g7 1 (fun _ => 0) := by
  have h1 : approx_hess g7 1 (fun _ => 0) 0 0 = 1 := by
    simp [approx_hess, std_basis, g7]
  have h2 : approx_hess_central_spec g7 1 (fun _ => 0) 0 0 = 0 := by
    simp [approx_hess_central_spec, std_basis, g7]
  refine ⟨h1, h2, fun h => ?_⟩
  rw [h, h2] at h1
  norm_num at h1

/-- C7 amended: the gradient fallback is the central finite difference of the
objective, evaluating `f` at `±ε` along each standard basis direction; the
Hessian fallback is a *forward* finite difference of the gradient, evaluating
the gradient only at `x` and at `x + ε eⱼ`. -/
theorem fd_fallback_amended {n : ℕ} (f : Vec n → ℚ) (gradient : Vec n → Vec n)
    (eps : ℚ) (x : Vec n) (i j : Fin n) :
    approx_grad f eps x i =
      (f (Function.update x i (x i + eps)) -
        f (Function.update x i (x i - eps))) / (2 * eps) ∧
    approx_hess gradient eps x i j =
      (gradient (Function.update x j (x j + eps)) i - gradient x i) / eps := by
  have hplus : ∀ k : Fin n, x + eps • std_basis n k = Function.update x k (x k + eps) := by
    intro k; funext t
    by_cases ht : t = k <;> simp [std_basis, Function.update_apply, ht]
  have hminus : ∀ k : Fin n, x - eps • std_basis n k = Function.update x k (x k - eps) := by
    intro k; funext t
    by_cases ht : t = k <;> simp [std_basis, Function.update_apply, ht]
  constructor
  · rw [approx_grad, hplus, hminus]
  · rw [approx_hess]
    simp only [Matrix.of_apply]
    rw [hplus]

/-! ### C8 -/

/-- Failing input for C8: `L = 0` supplied together with an objective. -/
def badInputs : Inputs :=
  ⟨[1], some (fun _ => 0), none, none, some 0, none,
    1 / 10000, 1000, 1 / 1000000, 1 / 2 ^ 25⟩

/-- C8 (code bug): the source's positivity check is
`not self.L or self.L > 0`, and Python's `not 0.0` is `True`, so a supplied
`L = 0` is treated like an unsupplied one: `check_inputs` accepts the input
even though the claim (and the source's own error message, "All inputs that
are constants must be larger than 0") requires an error for a supplied
non-positive scalar. -/
theorem check_inputs_zero_L_bug :
    check_inputs badInputs = true ∧ spec_requires_error badInputs = true := by
  constructor
  · simp [check_inputs, badInputs, py_not_or_pos]
  · simp [spec_requires_error, badInputs, suppliedNonPos]

/-! ### C2 -/

lemma adaptive_search_spec {n : ℕ} (P : Optimizer n) (fuel : ℕ) :
    ∀ (mkv : ℚ) (x_old : Vec n) (lam : ℚ) (x_new : Vec n) (macc : ℚ),
      P.adaptive_search fuel mkv x_old lam = some (x_new, macc) →
      P.f x_new ≤ P.f x_old ∧
      ∃ j : ℕ, macc = 2 ^ (j + 1) * mkv ∧
        x_new = P.auxSolve macc x_old lam ∧
        ∀ i : ℕ, i < j →
          ¬(P.f (P.auxSolve (2 ^ (i + 1) * mkv) x_old lam) ≤ P.f x_old) := by
  induction fuel with
  | zero =>
    intro mkv x_old lam x_new macc h
    simp [Optimizer.adaptive_search] at h
  | succ m ih =>
    intro mkv x_old lam x_new macc h
    simp only [Optimizer.adaptive_search] at h
    by_cases hacc : P.f (P.auxSolve (2 * mkv) x_old lam) - P.f x_old ≤ 0
    · rw [if_pos hacc] at h
      simp only [Option.some.injEq, Prod.mk.injEq] at h
      obtain ⟨hx, hm⟩ := h
      subst hx
      refine ⟨sub_nonpos.mp hacc, 0, ?_, ?_, ?_⟩
      · rw [← hm]; ring
      · rw [hm]
      · intro i hi; omega
    · rw [if_neg hacc] at h
      obtain ⟨hle, j, hm, hx, hfail⟩ := ih (2 * mkv) x_old lam x_new macc h
      refine ⟨hle, j + 1, ?_, ?_, ?_⟩
      · rw [hm]; ring
      · exact hx
      · intro i hi
        cases i with
        | zero =>
          have harg : (2 : ℚ) ^ (0 + 1) * mkv = 2 * mkv := by ring
          rw [harg, ← sub_nonpos]
          exact hacc
        | succ i' =>
          have harg : (2 : ℚ) ^ (i' + 1) * (2 * mkv) = 2 ^ (i' + 1 + 1) * mkv := by
            ring
          have hf := hfail i' (by omega)
          rwa [harg] at hf

lemma loopRun_chain {n : ℕ} (P : Optimizer n) (hL : P.L = none) (fuelI : ℕ) :
    ∀ (fuelO : ℕ) (st : OState n), st.pts.getLast? = some st.x →
      List.Chain' (fun a b => P.f b ≤ P.f a) st.pts →
      ∀ (xf : Vec n) (pts : List (Vec n)),
        P.loopRun fuelI fuelO st = some (xf, pts) →
        List.Chain' (fun a b => P.f b ≤ P.f a) pts := by
  intro fuelO
  induction fuelO with
  | zero =>
    intro st hlast hch xf pts h
    rw [Optimizer.loopRun] at h
    by_cases hg : P.loopGuard st = true
    · rw [if_pos hg] at h; cases h
    · rw [if_neg hg] at h
      simp only [Option.some.injEq, Prod.mk.injEq] at h
      rw [← h.2]; exact hch
  | succ m ih =>
    intro st hlast hch xf pts h
    rw [Optimizer.loopRun] at h
    by_cases hg : P.loopGuard st = true
    · rw [if_pos hg] at h
      cases hfind : P.find_x_new fuelI st.mkw st.x st.lam with
      | none =>
        rw [Optimizer.loopStep, hfind] at h
        cases h
      | some p =>
        obtain ⟨xn, mk'⟩ := p
        rw [Optimizer.loopStep, hfind] at h
        have hacc : P.f xn ≤ P.f st.x := by
          rw [Optimizer.find_x_new, hL] at hfind
          cases hsearch : P.adaptive_search fuelI st.mkw st.x st.lam with
          | none => rw [hsearch] at hfind; cases hfind
          | some q =>
            obtain ⟨xs, ms⟩ := q
            rw [hsearch] at hfind
            simp only [Option.some.injEq, Prod.mk.injEq] at hfind
            rw [← hfind.1]
            exact (adaptive_search_spec P fuelI st.mkw st.x st.lam xs ms hsearch).1
        refine ih _ ?_ ?_ xf pts h
        · simp
        · rw [List.chain'_append]
          refine ⟨hch, List.chain'_singleton xn, ?_⟩
          intro a ha b hb
          rw [hlast] at ha
          simp only [Option.mem_def, Option.some.injEq] at ha
          simp only [List.head?_cons, Option.mem_def, Option.some.injEq] at hb
          subst ha; subst hb
          exact hacc
    · rw [if_neg hg] at h
      simp only [Option.some.injEq, Prod.mk.injEq] at h
      rw [← h.2]; exact hch

/-- C2: in the adaptive regime (`L = None`), an accepted outer step satisfies
the claim: the trial point comes from solving the subproblem with the previous
weight doubled `j+1` times, every earlier doubling was rejected because the
objective value exceeded the current one, the accepted trial point does not
increase the objective, and the weight for the next outer iteration is
`max(m/2, L0)` for the accepted `m`; consequently the objective values along
the produced sequence of iterates are non-increasing: `f(x_{k+1}) ≤ f(x_k)`
for every consecutive pair. -/
theorem adaptive_descent {n : ℕ} (P : Optimizer n) (hL : P.L = none)
    (fuelI : ℕ) (mkv : ℚ) (x_old : Vec n) (lam : ℚ) (x_new : Vec n) (mk' : ℚ)
    (hfind : P.find_x_new fuelI mkv x_old lam = some (x_new, mk'))
    (st : OState n) (hlast : st.pts.getLast? = some st.x)
    (hch : List.Chain' (fun a b => P.f b ≤ P.f a) st.pts)
    (fuelO : ℕ) (xf : Vec n) (pts : List (Vec n))
    (hrun : P.loopRun fuelI fuelO st = some (xf, pts)) :
    (P.f x_new ≤ P.f x_old ∧
      ∃ j : ℕ, x_new = P.auxSolve (2 ^ (j + 1) * mkv) x_old lam ∧
        mk' = max ((2 ^ (j + 1) * mkv) / 2) P.L0 ∧
        ∀ i : ℕ, i < j →
          ¬(P.f (P.auxSolve (2 ^ (i + 1) * mkv) x_old lam) ≤ P.f x_old)) ∧
    List.Chain' (fun a b => P.f b ≤ P.f a) pts := by
  constructor
  · rw [Optimizer.find_x_new, hL] at hfind
    cases hsearch : P.adaptive_search fuelI mkv x_old lam with
    | none => rw [hsearch] at hfind; cases hfind
    | some q =>
      obtain ⟨xs, ms⟩ := q
      rw [hsearch] at hfind
      simp only [Option.some.injEq, Prod.mk.injEq] at hfind
      obtain ⟨hx, hm⟩ := hfind
      obtain ⟨hle, j, hms, hxs, hfail⟩ :=
        adaptive_search_spec P fuelI mkv x_old lam xs ms hsearch
      subst hx
      refine ⟨hle, j, ?_, ?_, hfail⟩
      · rw [hxs, hms]
      · rw [← hm, hms]
  · exact loopRun_chain P hL fuelI fuelO st hlast hch xf pts hrun

/-- Concrete optimizer for the C2 witness: objective `v₀²`, adaptive weight
search with `L0 = 1`, and a subproblem oracle that returns the origin. -/
def P2 : Optimizer 1 :=
  ⟨fun v => v 0 * v 0, fun v => v, none, 1, 5, 1 / 100,
    fun _ _ _ => (fun _ => 0), fun _ => 0⟩

theorem adaptive_descent_witness :
    (P2.f (fun _ => 0) ≤ P2.f (fun _ => 1) ∧
      ∃ j : ℕ, (fun _ => (0 : ℚ)) = P2.auxSolve (2 ^ (j + 1) * 1) (fun _ => 1) 0 ∧
        (1 : ℚ) = max ((2 ^ (j + 1) * 1) / 2) P2.L0 ∧
        ∀ i : ℕ, i < j →
          ¬(P2.f (P2.auxSolve (2 ^ (i + 1) * 1) (fun _ => 1) 0) ≤ P2.f (fun _ => 1))) ∧
    List.Chain' (fun a b => P2.f b ≤ P2.f a) [(fun _ => 1), (fun _ => 0)] := by
  refine adaptive_descent P2 rfl 1 1 (fun _ => 1) 0 (fun _ => 0) 1 ?_
    (P2.initState (fun _ => 1)) (by simp [Optimizer.initState]) (by simp [Optimizer.initState])
    2 (fun _ => 0) [(fun _ => 1), (fun _ => 0)] ?_
  · simp only [Optimizer.find_x_new, Optimizer.adaptive_search, P2]
    norm_num
  · simp only [Optimizer.cubic_reg, Optimizer.loopRun, Optimizer.loopStep,
      Optimizer.find_x_new, Optimizer.adaptive_search, Optimizer.loopGuard,
      Optimizer.initState, Optimizer.check_convergence, Optimizer.compute_lambda_nplus,
      normSq, P2]
    norm_num

/-! ### C3 -/

lemma cholSucceeds_fin_one (A : Mat 1) (h : 0 < A 0 0) : cholSucceeds A = true := by
  rw [cholSucceeds_iff]
  intro k
  fin_cases k
  have e : leadingSub A (Fin.last 0) = A := leadingSub_last A
  rw [show (⟨0, Nat.zero_lt_one⟩ : Fin 1) = Fin.last 0 from rfl, e, Matrix.det_fin_one]
  exact h

/-- Concrete subproblem for the C3 counterexample: `x = [1]`, gradient `[2]`,
Hessian `[[2]]` (positive definite, `λ₊ = 0`), weight `M = 1`. -/
def P3 : AuxProblem 1 := ⟨(fun _ => 1), (fun _ => 2), Matrix.of ![![2]], 1, 0, 1 / 10000⟩

lemma P3_H_chol : cholSucceeds P3.H = true := by
  apply cholSucceeds_fin_one
  norm_num [P3]

lemma P3_linSolve : linSolve P3.H (-P3.g) = (fun _ => -1) := by
  funext i
  simp [linSolve, Matrix.det_fin_one, Matrix.adjugate_fin_one, Matrix.one_mulVec, P3]

/-- C3 counterexample: for the positive-definite Hessian `[[2]]` with nonzero
gradient `[2]` (so `λ₊ = 0`, `M = 1 > 0`), the Newton point `x - H⁻¹g` is
`[0]`, but the subproblem solver does not return it from its first branch: the
first trial step has `‖s‖ = 1 > 2λ/M = 0`, so control reaches the secular
Newton iteration instead of any `return` before it. -/
theorem first_branch_counterexample :
    cholSucceeds P3.H = true ∧ 0 < P3.M ∧ P3.lambda_nplus = 0 ∧
    linSolve P3.H (-P3.g) + P3.x = (fun _ => (0 : ℚ)) ∧
    P3.solve_cases (fun _ => ((fun _ => 0), 1)) (fun _ _ _ => 0) 1 Nat.one_pos =
      some (SolveResult.newtonPhase (fun _ => -1) sqrtMachEps sqrtMachEps) ∧
    ∀ p : Vec 1, SolveResult.newtonPhase (fun _ => (-1 : ℚ)) sqrtMachEps sqrtMachEps ≠
      SolveResult.done p := by
  have hM : (0 : ℚ) < P3.M := by norm_num [P3]
  have hlc : P3.lambda_const = sqrtMachEps := by
    simp [AuxProblem.lambda_const, P3]
  have hcs : P3.compute_s 1 P3.lambda_const 0 =
      some ((fun _ => -1), 0, P3.lambda_const) := by
    rw [AuxProblem.compute_s, Hlam_zero, if_pos P3_H_chol, P3_linSolve]
  have hnle : normLE ((fun _ => -1 : Vec 1)) 0 = false := by
    simp [normLE, normSq, Fin.sum_univ_one]
  refine ⟨P3_H_chol, hM, rfl, ?_, ?_, ?_⟩
  · funext i; rw [P3_linSolve]; simp [P3]
  · rw [AuxProblem.solve_cases]
    simp only [show P3.lambda_nplus = 0 from rfl, eq_self_iff_true, if_true]
    rw [hcs]
    simp [hnle, hlc]
  · intro p h; cases h

/-- C3 amended: when `λ₊ = 0` and the Hessian factorizes (is positive
definite), the seed multiplier is `0` and the first factorize-and-solve step
returns exactly the Newton step: `s` with `H s = -g`, i.e. `x + s = x - H⁻¹g`;
but the solver's first branch returns this point only in the degenerate case
`‖s‖ ≤ 2·0/M = 0`, i.e. when the gradient is zero — then it returns
`s + x = x - H⁻¹g`. -/
theorem first_branch_amended {n : ℕ} (P : AuxProblem n)
    (hlam : P.lambda_nplus = 0) (hch : cholSucceeds P.H = true)
    (eigh : Mat n → Vec n × Mat n) (rootsMax : ℚ → ℚ → ℚ → ℚ) (fuel : ℕ)
    (hn : 0 < n) :
    P.compute_s (fuel + 1) P.lambda_const 0 =
      some (linSolve P.H (-P.g), 0, P.lambda_const) ∧
    P.H.mulVec (linSolve P.H (-P.g)) = -P.g ∧
    (P.g = 0 → P.solve_cases eigh rootsMax (fuel + 1) hn =
      some (SolveResult.done (linSolve P.H (-P.g) + P.x))) := by
  have hdet : P.H.det ≠ 0 := (det_pos_of_cholSucceeds P.H hch).ne'
  have hcs : P.compute_s (fuel + 1) P.lambda_const 0 =
      some (linSolve P.H (-P.g), 0, P.lambda_const) := by
    rw [AuxProblem.compute_s, Hlam_zero, if_pos hch]
  refine ⟨hcs, mulVec_linSolve P.H (-P.g) hdet, ?_⟩
  intro hg
  have hs0 : linSolve P.H (-P.g) = 0 := by
    rw [hg]; simp [linSolve]
  have hnle : normLE (linSolve P.H (-P.g)) 0 = true := by
    rw [hs0]
    simp [normLE, normSq]
  rw [AuxProblem.solve_cases]
  simp only [hlam, eq_self_iff_true, if_true]
  rw [hcs]
  simp [hnle]

/-- Concrete subproblem for the C3 amended witness: zero gradient. -/
def P3w : AuxProblem 1 := ⟨(fun _ => 1), 0, Matrix.of ![![2]], 1, 0, 1 / 10000⟩

theorem first_branch_amended_witness :
    P3w.compute_s 1 P3w.lambda_const 0 =
      some (linSolve P3w.H (-P3w.g), 0, P3w.lambda_const) ∧
    P3w.H.mulVec (linSolve P3w.H (-P3w.g)) = -P3w.g ∧
    (P3w.g = 0 → P3w.solve_cases (fun _ => ((fun _ => 0), 1)) (fun _ _ _ => 0) 1
      Nat.one_pos = some (SolveResult.done (linSolve P3w.H (-P3w.g) + P3w.x))) :=
  first_branch_amended P3w rfl (by apply cholSucceeds_fin_one; norm_num [P3w])
    (fun _ => ((fun _ => 0), 1)) (fun _ _ _ => 0) 0 Nat.one_pos

/-! ### C4 -/

lemma cholSucceeds_fin_two (A : Mat 2) (h1 : 0 < A 0 0) (h2 : 0 < A.det) :
    cholSucceeds A = true := by
  rw [cholSucceeds_iff]
  intro k
  fin_cases k
  · have e : (leadingSub A ⟨0, by omega⟩).det = A 0 0 := by
      rw [Matrix.det_fin_one, leadingSub, Matrix.submatrix_apply]
      congr 1
    rw [e]; exact h1
  · have e : leadingSub A ⟨1, by omega⟩ = A := by
      ext i j
      rw [leadingSub, Matrix.submatrix_apply]
      congr 1
    rw [e]; exact h2

/-- Eigenvector matrix returned by `np.linalg.eigh` for `H + λ₊ I` at the C4
failing input (columns are unit eigenvectors, eigenvalues ascending). -/
def U4 : Mat 2 := !![3/5, -4/5; 4/5, 3/5]

/-- Ascending eigenvalues of `H + λ₊ I` at the C4 failing input. -/
def Lam4 : Vec 2 := ![0, 25]

/-- The singular shifted Hessian `H + λ₊ I` at the C4 failing input. -/
def A4 : Mat 2 := !![16, -12; -12, 9]

/-- Gradient at the C4 failing input (orthogonal to the null eigenvector). -/
def g4 : Vec 2 := ![-4, 3]

/-- Concrete subproblem for C4: `x = 0`, `H = [[15,-12],[-12,8]]`
(eigenvalues `-1` and `24`, so `λ₊ = 1`), `M = 1`, `κ = 10⁻⁴`. -/
def P4 : AuxProblem 2 := ⟨0, g4, !![15, -12; -12, 8], 1, 1, 1 / 10000⟩

/-- The actual Moore–Penrose pseudo-inverse of `A4`, `U diag(Λ)⁺ Uᵀ`. -/
def pinv4 : Mat 2 := U4 * pinvDiag Lam4 * U4ᵀ

lemma P4_lc : P4.lambda_const = 1 / 2 ^ 25 := by
  rw [AuxProblem.lambda_const, sqrtMachEps]
  norm_num [P4]

lemma pinv4_eval : pinv4 = !![16/625, -12/625; -12/625, 9/625] := by
  ext i j
  fin_cases i <;> fin_cases j <;>
    simp [pinv4, U4, Lam4, pinvDiag, Matrix.mul_apply, Matrix.mulVec, Matrix.vecMul, Matrix.dotProduct, Matrix.transpose_apply, Matrix.diagonal_apply, Matrix.one_apply, Matrix.add_apply, Matrix.smul_apply, Matrix.vecHead, Matrix.vecTail, Fin.sum_univ_two] <;>
    norm_num

lemma sCriCode4_eval : sCriCode Lam4 U4 g4 = ![28/625, 21/625] := by
  funext i
  fin_cases i <;>
    simp [sCriCode, U4, Lam4, g4, pinvDiag, Matrix.mul_apply, Matrix.mulVec, Matrix.vecMul, Matrix.dotProduct, Matrix.transpose_apply, Matrix.diagonal_apply, Matrix.one_apply, Matrix.add_apply, Matrix.smul_apply, Matrix.vecHead, Matrix.vecTail, Fin.sum_univ_two] <;>
    norm_num

lemma P4_chol : cholSucceeds (P4.Hlam (1 + 1 / 2 ^ 25)) = true := by
  apply cholSucceeds_fin_two
  · simp [AuxProblem.Hlam, P4, Matrix.add_apply, Matrix.smul_apply, Matrix.one_apply]
    norm_num
  · rw [Matrix.det_fin_two]
    simp [AuxProblem.Hlam, P4, Matrix.add_apply, Matrix.smul_apply, Matrix.one_apply]
    norm_num

lemma P4_linSolve : linSolve (P4.Hlam (1 + 1 / 2 ^ 25)) (-g4) =
    ![4 / (25 + 1 / 2 ^ 25), -3 / (25 + 1 / 2 ^ 25)] := by
  funext i
  fin_cases i <;>
    simp [linSolve, AuxProblem.Hlam, P4, g4, Matrix.det_fin_two,
      Matrix.adjugate_fin_two, Matrix.mulVec, Matrix.dotProduct,
      Fin.sum_univ_two, Matrix.add_apply, Matrix.smul_apply, Matrix.one_apply] <;>
    norm_num

/-- C4 (code bug): at the concrete hard-case input `x = 0`,
`H = [[15,-12],[-12,8]]`, `g = [-4,3]`, `λ₊ = 1`, `M = 1`, with the valid
eigendecomposition `H + λ₊I = A4 = U4 · diag(0,25) · U4ᵀ` (U4 orthogonal,
eigenvalues ascending), the matrix `pinv4 = U4 · diag(0,25)⁺ · U4ᵀ` satisfies
all four Moore–Penrose equations for `A4`, so it is the pseudo-inverse; but
the source computes `s_cri = -U.T @ pinv(diag Λ) @ U @ g` — the sandwich is
transposed — which differs from `-pinv(H + λ₊I) @ g`.  The final conjunct
shows the hard-case branch is the one actually taken at this input and that
the returned point is built from the transposed expression. -/
theorem hard_case_pinv_transposed :
    U4ᵀ * U4 = 1 ∧
    P4.Hlam P4.lambda_nplus = A4 ∧
    U4 * Matrix.diagonal Lam4 * U4ᵀ = A4 ∧
    Lam4 0 ≤ Lam4 1 ∧
    (A4 * pinv4 * A4 = A4 ∧ pinv4 * A4 * pinv4 = pinv4 ∧
      (A4 * pinv4)ᵀ = A4 * pinv4 ∧ (pinv4 * A4)ᵀ = pinv4 * A4) ∧
    sCriCode Lam4 U4 g4 ≠ -(pinv4.mulVec g4) ∧
    (∃ alph : ℚ, P4.solve_cases (fun _ => (Lam4, U4)) (fun _ _ _ => 0) 1
        (Nat.succ_pos 1) =
      some (SolveResult.done (sCriCode Lam4 U4 g4 +
        alph • (fun i => U4 i ⟨0, Nat.succ_pos 1⟩) + P4.x))) := by
  refine ⟨?_, ?_, ?_, ?_, ⟨?_, ?_, ?_, ?_⟩, ?_, ?_⟩
  · ext i j
    fin_cases i <;> fin_cases j <;>
      simp [U4, Matrix.mul_apply, Matrix.mulVec, Matrix.vecMul, Matrix.dotProduct, Matrix.transpose_apply, Matrix.diagonal_apply, Matrix.one_apply, Matrix.add_apply, Matrix.smul_apply, Matrix.vecHead, Matrix.vecTail, Fin.sum_univ_two] <;> norm_num
  · ext i j
    fin_cases i <;> fin_cases j <;>
      simp [AuxProblem.Hlam, P4, A4, Matrix.add_apply, Matrix.smul_apply,
        Matrix.one_apply] <;> norm_num
  · ext i j
    fin_cases i <;> fin_cases j <;>
      simp [U4, Lam4, A4, Matrix.mul_apply, Matrix.mulVec, Matrix.vecMul, Matrix.dotProduct, Matrix.transpose_apply, Matrix.diagonal_apply, Matrix.one_apply, Matrix.add_apply, Matrix.smul_apply, Matrix.vecHead, Matrix.vecTail, Fin.sum_univ_two] <;> norm_num
  · norm_num [Lam4]
  · rw [pinv4_eval]
    ext i j
    fin_cases i <;> fin_cases j <;>
      simp [A4, Matrix.mul_apply, Matrix.mulVec, Matrix.vecMul, Matrix.dotProduct, Matrix.transpose_apply, Matrix.diagonal_apply, Matrix.one_apply, Matrix.add_apply, Matrix.smul_apply, Matrix.vecHead, Matrix.vecTail, Fin.sum_univ_two] <;> norm_num
  · rw [pinv4_eval]
    ext i j
    fin_cases i <;> fin_cases j <;>
      simp [A4, Matrix.mul_apply, Matrix.mulVec, Matrix.vecMul, Matrix.dotProduct, Matrix.transpose_apply, Matrix.diagonal_apply, Matrix.one_apply, Matrix.add_apply, Matrix.smul_apply, Matrix.vecHead, Matrix.vecTail, Fin.sum_univ_two] <;> norm_num
  · rw [pinv4_eval]
    ext i j
    fin_cases i <;> fin_cases j <;>
      simp [A4, Matrix.mul_apply, Matrix.mulVec, Matrix.vecMul, Matrix.dotProduct, Matrix.transpose_apply, Matrix.diagonal_apply, Matrix.one_apply, Matrix.add_apply, Matrix.smul_apply, Matrix.vecHead, Matrix.vecTail, Fin.sum_univ_two] <;> norm_num
  · rw [pinv4_eval]
    ext i j
    fin_cases i <;> fin_cases j <;>
      simp [A4, Matrix.mul_apply, Matrix.mulVec, Matrix.vecMul, Matrix.dotProduct, Matrix.transpose_apply, Matrix.diagonal_apply, Matrix.one_apply, Matrix.add_apply, Matrix.smul_apply, Matrix.vecHead, Matrix.vecTail, Fin.sum_univ_two] <;> norm_num
  · intro h
    have h0 := congrFun h 0
    rw [sCriCode4_eval, pinv4_eval] at h0
    simp [Matrix.mulVec, Matrix.dotProduct, Fin.sum_univ_two, g4] at h0
    norm_num at h0
  · refine ⟨0, ?_⟩
    have hlam0 : (if P4.lambda_nplus = 0 then (0 : ℚ)
        else P4.lambda_nplus + P4.lambda_const) = 1 + 1 / 2 ^ 25 := by
      rw [if_neg (by norm_num [P4]), P4_lc]
      norm_num [P4]
    have hcs : P4.compute_s 1 P4.lambda_const (1 + 1 / 2 ^ 25) =
        some (![4 / (25 + 1 / 2 ^ 25), -3 / (25 + 1 / 2 ^ 25)],
          1 + 1 / 2 ^ 25, P4.lambda_const) := by
      rw [AuxProblem.compute_s, if_pos P4_chol, show P4.g = g4 from rfl, P4_linSolve]
    have hnle : normLE ![4 / (25 + 1 / 2 ^ 25), -3 / (25 + 1 / 2 ^ 25)]
        (2 * (1 + 1 / 2 ^ 25) / P4.M) = true := by
      simp [normLE, normSq, Fin.sum_univ_two, P4]
      norm_num
    have hneq : normEQ ![4 / (25 + 1 / 2 ^ 25), -3 / (25 + 1 / 2 ^ 25)]
        (2 * (1 + 1 / 2 ^ 25) / P4.M) = false := by
      simp [normEQ, normSq, Fin.sum_univ_two, P4]
      norm_num
    rw [AuxProblem.solve_cases]
    simp only [hlam0, hcs, hnle, hneq]
    norm_num [show P4.g = g4 from rfl]

/-! ### C10 -/

/-- Sum of the absolute values of all entries: a crude bound on the size of
the quadratic form of a matrix. -/
def entryAbsSum {m : ℕ} (A : Matrix (Fin m) (Fin m) ℚ) : ℚ := ∑ i, ∑ j, |A i j|

lemma quadform_abs_le {m : ℕ} (B : Matrix (Fin m) (Fin m) ℝ) (x : Fin m → ℝ) :
    |∑ i, ∑ j, B i j * x i * x j| ≤ (∑ i, ∑ j, |B i j|) * ∑ i, x i ^ 2 := by
  have hxx : ∀ i j : Fin m, |x i| * |x j| ≤ ∑ k, x k ^ 2 := by
    intro i j
    have h1 : |x i| ^ 2 ≤ ∑ k, x k ^ 2 := by
      rw [sq_abs]
      exact Finset.single_le_sum (fun k _ => sq_nonneg (x k)) (Finset.mem_univ i)
    have h2 : |x j| ^ 2 ≤ ∑ k, x k ^ 2 := by
      rw [sq_abs]
      exact Finset.single_le_sum (fun k _ => sq_nonneg (x k)) (Finset.mem_univ j)
    nlinarith [abs_nonneg (x i), abs_nonneg (x j), sq_nonneg (|x i| - |x j|)]
  calc |∑ i, ∑ j, B i j * x i * x j|
      ≤ ∑ i, |∑ j, B i j * x i * x j| := Finset.abs_sum_le_sum_abs _ _
    _ ≤ ∑ i, ∑ j, |B i j * x i * x j| :=
        Finset.sum_le_sum (fun i _ => Finset.abs_sum_le_sum_abs _ _)
    _ = ∑ i, ∑ j, |B i j| * (|x i| * |x j|) := by
        refine Finset.sum_congr rfl fun i _ => Finset.sum_congr rfl fun j _ => ?_
        rw [abs_mul, abs_mul, mul_assoc]
    _ ≤ ∑ i, ∑ j, |B i j| * ∑ k, x k ^ 2 := by
        refine Finset.sum_le_sum fun i _ => Finset.sum_le_sum fun j _ => ?_
        exact mul_le_mul_of_nonneg_left (hxx i j) (abs_nonneg _)
    _ = (∑ i, ∑ j, |B i j|) * ∑ i, x i ^ 2 := by
        rw [Finset.sum_mul]
        exact Finset.sum_congr rfl fun i _ => (Finset.sum_mul _ _ _).symm

lemma posDef_ratCast_add_smul {m : ℕ} (A : Matrix (Fin m) (Fin m) ℚ)
    (hA : Aᵀ = A) (c : ℚ) (hc : entryAbsSum A < c) :
    ((A + c • 1).map (fun q : ℚ => (q : ℝ))).PosDef := by
  have hsym : (A + c • (1 : Matrix (Fin m) (Fin m) ℚ))ᵀ = A + c • 1 := by
    rw [Matrix.transpose_add, Matrix.transpose_smul, Matrix.transpose_one, hA]
  constructor
  · show _ = _
    have h1 : ((A + c • 1).map (fun q : ℚ => (q : ℝ)))ᴴ =
        ((A + c • 1)ᵀ).map (fun q : ℚ => (q : ℝ)) := by
      ext i j
      simp only [Matrix.conjTranspose_apply, Matrix.map_apply, Matrix.transpose_apply]
      exact star_trivial _
    rw [h1, hsym]
  · intro x hx
    have hstar : star x = x := by funext i; simp
    have hcast : ∀ i j : Fin m, ((A i j + c * if i = j then 1 else 0 : ℚ) : ℝ) * x j =
        (A i j : ℝ) * x j + ((c : ℝ) * if i = j then (1 : ℝ) else 0) * x j := by
      intro i j
      by_cases h : i = j <;> simp [h] <;> push_cast <;> ring
    have hrow : ∀ i, (((A + c • 1).map (fun q : ℚ => (q : ℝ))) *ᵥ x) i =
        (∑ j, (A i j : ℝ) * x j) + (c : ℝ) * x i := by
      intro i
      simp only [Matrix.mulVec, Matrix.dotProduct, Matrix.map_apply,
        Matrix.add_apply, Matrix.smul_apply, Matrix.one_apply, smul_eq_mul]
      rw [Finset.sum_congr rfl (fun j _ => hcast i j), Finset.sum_add_distrib]
      congr 1
      simp [ite_mul, mul_ite, Finset.sum_ite_eq, Finset.mem_univ]
    have key : x ⬝ᵥ (((A + c • 1).map (fun q : ℚ => (q : ℝ))) *ᵥ x) =
        (∑ i, ∑ j, (A i j : ℝ) * x i * x j) + (c : ℝ) * ∑ i, x i ^ 2 := by
      simp only [Matrix.dotProduct, hrow, mul_add]
      rw [Finset.sum_add_distrib]
      congr 1
      · refine Finset.sum_congr rfl fun i _ => ?_
        rw [Finset.mul_sum]
        exact Finset.sum_congr rfl fun j _ => by ring
      · rw [Finset.mul_sum]
        exact Finset.sum_congr rfl fun i _ => by ring
    have habs := quadform_abs_le (A.map (fun q : ℚ => (q : ℝ))) x
    have hBcast : (∑ i, ∑ j, |(A.map (fun q : ℚ => (q : ℝ))) i j|) =
        ((entryAbsSum A : ℚ) : ℝ) := by
      rw [entryAbsSum]
      push_cast
      exact Finset.sum_congr rfl fun i _ => Finset.sum_congr rfl fun j _ => by
        rw [Matrix.map_apply]
    have hS : 0 < ∑ i, x i ^ 2 := by
      obtain ⟨i, hi⟩ := Function.ne_iff.mp hx
      refine Finset.sum_pos' (fun k _ => sq_nonneg (x k)) ⟨i, Finset.mem_univ i, ?_⟩
      rw [sq]
      exact mul_self_pos.mpr hi
    rw [hstar, key]
    have hq : |∑ i, ∑ j, (A i j : ℝ) * x i * x j| ≤
        ((entryAbsSum A : ℚ) : ℝ) * ∑ i, x i ^ 2 := by
      rw [← hBcast]
      have : ∀ i j : Fin m, (A.map (fun q : ℚ => (q : ℝ))) i j = (A i j : ℝ) :=
        fun i j => rfl
      simpa [this] using habs
    have hclt : ((entryAbsSum A : ℚ) : ℝ) < (c : ℝ) := by exact_mod_cast hc
    have hmul : ((entryAbsSum A : ℚ) : ℝ) * (∑ i, x i ^ 2) < (c : ℝ) * ∑ i, x i ^ 2 :=
      mul_lt_mul_of_pos_right hclt hS
    have hlow : -(((entryAbsSum A : ℚ) : ℝ) * ∑ i, x i ^ 2) ≤
        ∑ i, ∑ j, (A i j : ℝ) * x i * x j := neg_le_of_abs_le hq
    linarith

lemma det_pos_add_smul {m : ℕ} (A : Matrix (Fin m) (Fin m) ℚ) (hA : Aᵀ = A)
    (c : ℚ) (hc : entryAbsSum A < c) : 0 < (A + c • 1).det := by
  have hpd := posDef_ratCast_add_smul A hA c hc
  have hdet := hpd.det_pos
  have hcast : (((A + c • 1).det : ℚ) : ℝ) =
      ((A + c • 1).map (fun q : ℚ => (q : ℝ))).det := by
    have h := RingHom.map_det (Rat.castHom ℝ) (A + c • 1)
    rw [RingHom.mapMatrix_apply, Rat.coe_castHom] at h
    exact h
  rw [← hcast] at hdet
  exact_mod_cast hdet

lemma leadingSub_add_smul_one {n : ℕ} (A : Mat n) (c : ℚ) (k : Fin n) :
    leadingSub (A + c • 1) k = leadingSub A k + c • 1 := by
  ext i j
  simp [leadingSub, Matrix.submatrix_apply, Matrix.add_apply, Matrix.smul_apply,
    Matrix.one_apply, Fin.castLE_inj]

lemma leadingSub_transpose {n : ℕ} (A : Mat n) (hA : Aᵀ = A) (k : Fin n) :
    (leadingSub A k)ᵀ = leadingSub A k := by
  ext i j
  show A (Fin.castLE k.isLt j) (Fin.castLE k.isLt i) = _
  conv_lhs => rw [← hA]
  rfl

lemma entryAbsSum_leadingSub_le {n : ℕ} (A : Mat n) (k : Fin n) :
    entryAbsSum (leadingSub A k) ≤ entryAbsSum A := by
  rw [entryAbsSum, entryAbsSum, ← Fintype.sum_prod_type', ← Fintype.sum_prod_type']
  calc ∑ p : Fin (k.val + 1) × Fin (k.val + 1), |leadingSub A k p.1 p.2|
      = ∑ q in Finset.univ.map
          ((Fin.castLEEmb k.isLt).prodMap (Fin.castLEEmb k.isLt)), |A q.1 q.2| := by
        rw [Finset.sum_map]
        rfl
    _ ≤ ∑ q : Fin n × Fin n, |A q.1 q.2| :=
        Finset.sum_le_sum_of_subset_of_nonneg (Finset.subset_univ _)
          (fun q _ _ => abs_nonneg _)

lemma cholSucceeds_add_of_big {n : ℕ} (A : Mat n) (hA : Aᵀ = A) (c : ℚ)
    (hc : entryAbsSum A < c) : cholSucceeds (A + c • 1) = true := by
  rw [cholSucceeds_iff]
  intro k
  rw [leadingSub_add_smul_one]
  exact det_pos_add_smul (leadingSub A k) (leadingSub_transpose A hA k) c
    (lt_of_le_of_lt (entryAbsSum_leadingSub_le A k) hc)

lemma compute_s_aux {n : ℕ} (P : AuxProblem n) (hA : P.Hᵀ = P.H) :
    ∀ (j : ℕ) (del lam : ℚ), 0 < del → P.lambda_nplus ≤ lam →
      entryAbsSum P.H - P.lambda_nplus < 2 * del * 2 ^ j →
      ∃ s lam' del', P.compute_s (j + 2) del lam = some (s, lam', del') ∧
        cholSucceeds (P.Hlam lam') = true ∧
        (P.Hlam lam').mulVec s = -P.g ∧ P.lambda_nplus ≤ lam' := by
  intro j
  induction j with
  | zero =>
    intro del lam hdel hlam hbound
    by_cases hch : cholSucceeds (P.Hlam lam) = true
    · exact ⟨linSolve (P.Hlam lam) (-P.g), lam, del,
        by rw [AuxProblem.compute_s, if_pos hch], hch,
        mulVec_linSolve _ _ (det_pos_of_cholSucceeds _ hch).ne', hlam⟩
    · have hb : entryAbsSum P.H < P.lambda_nplus + 2 * del := by
        have : (2 : ℚ) ^ (0 : ℕ) = 1 := pow_zero 2
        rw [this] at hbound
        linarith
      have hch2 : cholSucceeds (P.Hlam (P.lambda_nplus + 2 * del)) = true :=
        cholSucceeds_add_of_big P.H hA _ hb
      refine ⟨linSolve (P.Hlam (P.lambda_nplus + 2 * del)) (-P.g),
        P.lambda_nplus + 2 * del, 2 * del, ?_, hch2,
        mulVec_linSolve _ _ (det_pos_of_cholSucceeds _ hch2).ne', by linarith⟩
      rw [AuxProblem.compute_s, if_neg hch, AuxProblem.compute_s, if_pos hch2]
  | succ j ih =>
    intro del lam hdel hlam hbound
    by_cases hch : cholSucceeds (P.Hlam lam) = true
    · exact ⟨linSolve (P.Hlam lam) (-P.g), lam, del,
        by rw [AuxProblem.compute_s, if_pos hch], hch,
        mulVec_linSolve _ _ (det_pos_of_cholSucceeds _ hch).ne', hlam⟩
    · have hbound2 : entryAbsSum P.H - P.lambda_nplus < 2 * (2 * del) * 2 ^ j := by
        have : 2 * (2 * del) * (2 : ℚ) ^ j = 2 * del * 2 ^ (j + 1) := by
          rw [pow_succ]; ring
        rw [this]
        exact hbound
      obtain ⟨s, lam', del', hcs, h1, h2, h3⟩ :=
        ih (2 * del) (P.lambda_nplus + 2 * del) (by linarith) (by linarith) hbound2
      exact ⟨s, lam', del',
        by rw [AuxProblem.compute_s, if_neg hch]; exact hcs, h1, h2, h3⟩

/-- C10: for a symmetric Hessian and any seed `λ ≥ λ₊`, the
factorize-and-solve step terminates: some fuel suffices (the retry doubles the
offset, and a large enough shift makes `H + λ'I` positive definite), and the
returned triple has a successful Cholesky factorization at the final
multiplier `λ' ≥ λ₊`, with `s` solving `(H + λ'I) s = -g`. -/
theorem compute_s_terminates {n : ℕ} (P : AuxProblem n) (hsym : P.Hᵀ = P.H)
    (del lam : ℚ) (hdel : 0 < del) (hlam : P.lambda_nplus ≤ lam) :
    ∃ (fuel : ℕ) (s : Vec n) (lam' del' : ℚ),
      P.compute_s fuel del lam = some (s, lam', del') ∧
      cholSucceeds (P.Hlam lam') = true ∧
      (P.Hlam lam').mulVec s = -P.g ∧ P.lambda_nplus ≤ lam' := by
  obtain ⟨j, hj⟩ := exists_nat_gt ((entryAbsSum P.H - P.lambda_nplus) / (2 * del))
  have h2j : (j : ℚ) ≤ 2 ^ j := by
    have h := Nat.lt_two_pow j
    have h2 : (j : ℚ) < ((2 ^ j : ℕ) : ℚ) := by exact_mod_cast h
    rw [Nat.cast_pow] at h2
    exact_mod_cast h2.le
  have hpos : (0 : ℚ) < 2 * del := by linarith
  have h1 : entryAbsSum P.H - P.lambda_nplus < 2 * del * j := by
    rw [div_lt_iff₀ hpos] at hj
    linarith
  have h2 : 2 * del * (j : ℚ) ≤ 2 * del * 2 ^ j :=
    mul_le_mul_of_nonneg_left h2j (by linarith)
  obtain ⟨s, lam', del', h⟩ :=
    compute_s_aux P hsym j del lam hdel hlam (by linarith)
  exact ⟨j + 2, s, lam', del', h⟩

/-- Concrete subproblem for the C10 witness: `H = [[-1]]` is not positive
definite, so the first factorization fails and the retry at `λ₊ + 2δ` is
exercised. -/
def P10 : AuxProblem 1 := ⟨(fun _ => 0), (fun _ => 1), Matrix.of ![![-1]], 1, 0, 1 / 10000⟩

theorem compute_s_terminates_witness :
    ∃ (fuel : ℕ) (s : Vec 1) (lam' del' : ℚ),
      P10.compute_s fuel 1 0 = some (s, lam', del') ∧
      cholSucceeds (P10.Hlam lam') = true ∧
      (P10.Hlam lam').mulVec s = -P10.g ∧ P10.lambda_nplus ≤ lam' :=
  compute_s_terminates P10 (by ext i j; fin_cases i <;> fin_cases j <;> rfl)
    1 0 one_pos (le_refl 0)

end CubicReg
